import Mathlib

/-!
Verification development for the savecodec repository: a schema-driven
binary codec compiler (the `binformat` proc macro) plus a save-file
envelope codec (the `savecodec` crate).

The `binformat` crate emits, from a schema (`Format`), Rust code that reads
and writes binary records.  We embed the *semantics of the emitted code* as
an interpreter over the schema: primitive reads/writes become byte-list
operations, named composite types recurse through a fuel parameter, and the
condition/count expressions (arbitrary Rust expressions spliced into the
generated code and evaluated over the in-scope locals and the root context)
are embedded as Lean functions over the decoded environments.

Machine integers are represented by their bit patterns (Nat, reduced mod
256 per byte), so the float types are covered at the byte level as well.
-/

namespace SaveCodec

/-- Values produced by the generated code: numeric primitives as bit
patterns, booleans, composite structs as ordered field lists, `Option`
values of conditional fields and `Vec` values of repeated fields. -/
inductive Value where
  | num : Nat → Value
  | bit : Bool → Value
  | record : List (String × Value) → Value
  | opt : Option Value → Value
  | arr : List Value → Value

/-- Decoded environment: the let-bound locals of a generated `read` body
(field name, decoded value), in declaration order.  The root context
`_root` is an environment as well. -/
abbrev Env := List (String × Value)

/-- First-match association lookup (field access / local variable lookup
by identifier). -/
def assocGet (k : String) : List (String × α) → Option α
  | [] => none
  | (k2, v) :: rest => if k = k2 then some v else assocGet k rest

/-- `parse.rs`: endianness of the schema, from the `meta` entry. -/
inductive Endianness where
  | little
  | big
  deriving DecidableEq

/-- The ten numeric Rust types of `RUST_TYPES` in `generation/mod.rs`. -/
inductive PrimKind where
  | u8 | u16 | u32 | u64 | i8 | i16 | i32 | i64 | f32 | f64
  deriving DecidableEq

/-- Encoded byte width of a numeric primitive (equals `size_of::<T>()`). -/
def PrimKind.width : PrimKind → Nat
  | .u8 => 1 | .u16 => 2 | .u32 => 4 | .u64 => 8
  | .i8 => 1 | .i16 => 2 | .i32 => 4 | .i64 => 8
  | .f32 => 4 | .f64 => 8

/-- Rust name of a numeric primitive, as it appears in `RUST_TYPES`. -/
def PrimKind.name : PrimKind → String
  | .u8 => "u8" | .u16 => "u16" | .u32 => "u32" | .u64 => "u64"
  | .i8 => "i8" | .i16 => "i16" | .i32 => "i32" | .i64 => "i64"
  | .f32 => "f32" | .f64 => "f64"

/-- A field's declared `type`, after the three-way dispatch the generator
performs on the type's token string (`handle_simple_read` /
`handle_simple_write`): a `RUST_TYPES` member, the special-cased `bool`,
or a reference to a user-defined composite type. -/
inductive DataType where
  | prim : PrimKind → DataType
  | boolean : DataType
  | named : String → DataType
  deriving DecidableEq

/-- `Condition { expression, advance_if_false }`.  The expression is an
arbitrary Rust boolean expression spliced into the generated code; its
semantics is a function of the root context and the locals in scope. -/
structure Condition where
  expression : Env → Env → Bool
  advance_if_false : Bool

/-- `Repetition::Count(expression)`; the count expression evaluates over
the same scope as conditions. -/
inductive Repetition where
  | count : (Env → Env → Nat) → Repetition

/-- `Item { id, data_type, condition, repetition }` — one field. -/
structure Item where
  id : String
  data_type : DataType
  condition : Option Condition
  repetition : Option Repetition

/-- `Format { endianness, types, items }` — the parsed schema.  The
`HashMap` of user-defined types is embedded as an association list. -/
structure Format where
  endianness : Endianness
  types : List (String × List Item)
  items : List Item

/-! ### Byte-level primitives

`byteorder` reads and writes fixed-width values.  A value's little-endian
byte pattern is its base-256 digit list, least significant first; the
big-endian pattern is the reverse.  Each byte is reduced mod 256. -/

/-- Assemble a little-endian byte list into its bit pattern. -/
def bytesToNatLE : List Nat → Nat
  | [] => 0
  | b :: rest => b % 256 + 256 * bytesToNatLE rest

/-- Little-endian byte pattern of width `w` of a value. -/
def natToBytesLE : Nat → Nat → List Nat
  | 0, _ => []
  | w + 1, v => v % 256 :: natToBytesLE w (v / 256)

/-- Assemble bytes per the schema endianness. -/
def bytesToNat : Endianness → List Nat → Nat
  | .little, bs => bytesToNatLE bs
  | .big, bs => bytesToNatLE bs.reverse

/-- Serialize a bit pattern per the schema endianness. -/
def natToBytes : Endianness → Nat → Nat → List Nat
  | .little, w, v => natToBytesLE w v
  | .big, w, v => (natToBytesLE w v).reverse

/-- `reader.read_<ty>::<E>()`: consume exactly `w` bytes, failing without
consuming anything when fewer are available (the `std` `read_exact` for a
byte slice checks the length before consuming). -/
def readPrim (e : Endianness) (w : Nat) (s : List Nat) : Option (Nat × List Nat) :=
  if w ≤ s.length then some (bytesToNat e (s.take w), s.drop w) else none

/-- `size_of::<T>()`, used by `generate_conditional_read` to skip a
false-condition field and by `generate_conditional_write` to zero-fill an
absent one.  For the numeric primitives and `bool` this is the encoded
width; for a user-defined struct it is an in-memory layout size that the
schema does not determine, so it is unavailable here (such a skip or
zero-fill is modelled as failing). -/
def sizeOfDataType : DataType → Option Nat
  | .prim k => some k.width
  | .boolean => some 1
  | .named _ => none

/-! ### Read side, `generation/reads.rs`

The generated `read` bodies are embedded as functions threading the byte
stream.  Recursion into user-defined types goes through a reader for named
types (`namedReader`), structurally recursive on a fuel parameter.

The flag `st` selects between the semantics of the emitted code
(`st = false`: a failed inner read under a true condition produces the
absent value, because the emitted code wraps the inner `Option` as
`Some(#statement)`) and the strict variant in which such a failure aborts
the decode (`st = true`); the two differ in no other way. -/

/-- The three-case dispatch of `handle_simple_read`: numeric primitive,
`bool` (read one byte, nonzero means true), or `#data_type::read(reader, &_root)`. -/
def handleSimpleRead (fmt : Format)
    (nr : String → Env → List Nat → Option (Value × List Nat))
    (dt : DataType) (ctx : Env) (s : List Nat) : Option (Value × List Nat) :=
  match dt with
  | .prim k => (readPrim fmt.endianness k.width s).map (fun p => (.num p.1, p.2))
  | .boolean =>
    match s with
    | [] => none
    | b :: rest => some (.bit (b % 256 != 0), rest)
  | .named t => nr t ctx s

/-- `generate_conditional_read`: when the condition holds, run the inner
read and wrap it (`Some(#statement)` — with `st = false` an inner failure
therefore yields the absent value); when it fails and `advance_if_false`
is set, consume `size_of::<T>()` bytes uninterpreted; otherwise consume
nothing.

The inner reader is a pure function that returns `none` on failure, so
the failure-masking branch here resumes at the original stream.  That is
exact for primitive and `bool` inner reads — the byte-slice `read_exact`
checks the length before consuming, so a failed read consumes nothing —
but a failed composite `Inner::read` can leave the real reader advanced
by the bytes its successfully decoded prefix consumed, which a pure
reader cannot represent.  Theorems about the masked branch are therefore
stated for primitive and `bool` fields only; the strict variant
(`st = true`) fails instead of taking this branch at all. -/
def conditionalRead (st : Bool) (c : Condition)
    (inner : List Nat → Option (Value × List Nat))
    (dt : DataType) (ctx locals : Env) (s : List Nat) : Option (Value × List Nat) :=
  if c.expression ctx locals then
    match inner s with
    | some (v, s2) => some (.opt (some v), s2)
    | none => if st then none else some (.opt none, s)
  else if c.advance_if_false then
    match sizeOfDataType dt with
    | some w => if w ≤ s.length then some (.opt none, s.drop w) else none
    | none => none
  else
    some (.opt none, s)

/-- `(0..#expr).map(|_| #statement).collect::<Option<Vec<_>>>()`: run the
inner statement `n` times in sequence; any single failure fails the
whole collection. -/
def repeatedRead (inner : List Nat → Option (Value × List Nat)) :
    Nat → List Nat → Option (List Value × List Nat)
  | 0, s => some ([], s)
  | n + 1, s =>
    match inner s with
    | none => none
    | some (v, s2) =>
      match repeatedRead inner n s2 with
      | none => none
      | some (vs, s3) => some (v :: vs, s3)

/-- `create_statement` (reading): wrap the base read in at most one layer
of conditional code, then at most one layer of repetition code. -/
def statementRead (st : Bool) (fmt : Format)
    (nr : String → Env → List Nat → Option (Value × List Nat))
    (it : Item) (ctx locals : Env) (s : List Nat) : Option (Value × List Nat) :=
  let base := fun s2 => handleSimpleRead fmt nr it.data_type ctx s2
  let withCond :=
    match it.condition with
    | some c => fun s2 => conditionalRead st c base it.data_type ctx locals s2
    | none => base
  match it.repetition with
  | some (.count e) =>
    (repeatedRead withCond (e ctx locals) s).map (fun p => (.arr p.1, p.2))
  | none => withCond s

/-- The sequence of `let #id = #read?;` statements of a generated `read`
body: decode each field in order, accumulating the locals; any statement
failure aborts the whole decode. -/
def readItems (st : Bool) (fmt : Format)
    (nr : String → Env → List Nat → Option (Value × List Nat)) :
    List Item → Env → Env → List Nat → Option (Env × List Nat)
  | [], _, locals, s => some (locals, s)
  | it :: rest, ctx, locals, s =>
    match statementRead st fmt nr it ctx locals s with
    | none => none
    | some (v, s2) => readItems st fmt nr rest ctx (locals ++ [(it.id, v)]) s2

/-- `#data_type::read(reader, &_root)` for user-defined types
(`generate_composite_struct`): look the type up, run its field reads with
empty locals and the root context, and build the struct from all decoded
fields in order. -/
def namedReader (st : Bool) (fmt : Format) :
    Nat → String → Env → List Nat → Option (Value × List Nat)
  | 0 => fun _ _ _ => none
  | fuel + 1 => fun t ctx s =>
    match assocGet t fmt.types with
    | none => none
    | some its =>
      match readItems st fmt (namedReader st fmt fuel) its ctx [] s with
      | none => none
      | some (vals, s2) => some (.record vals, s2)

/-! ### The context prefix, `generation/structs.rs` -/

/-- `RUST_TYPES` from `generation/mod.rs`. -/
def RUST_TYPES : List String :=
  ["u8", "u16", "u32", "u64", "i8", "i16", "i32", "i64", "f32", "f64"]

/-- Rust rendering of a declared data type. -/
def typeName : DataType → String
  | .prim k => k.name
  | .boolean => "bool"
  | .named t => t

/-- The struct field type `generate_struct` derives for an item:
`Vec<T>` for repeated fields, `Option<T>` for conditional ones, `T`
otherwise. -/
def fieldTypeName (it : Item) : String :=
  match it.repetition, it.condition with
  | some _, _ => "Vec<" ++ typeName it.data_type ++ ">"
  | none, some _ => "Option<" ++ typeName it.data_type ++ ">"
  | none, none => typeName it.data_type

/-- `is_simple_type` from `generate_root_struct`: membership of the
field's type string in `RUST_TYPES`. -/
def is_simple_type (s : String) : Bool := RUST_TYPES.contains s

/-- Length of the leading run of simple-typed fields of the root item
list: the boundary at which the generated root `read` materializes the
`_root` context struct. -/
def contextLen (items : List Item) : Nat :=
  (items.takeWhile (fun it => is_simple_type (fieldTypeName it))).length

/-- `generate_root_struct`'s `read`: decode the context-prefix fields,
materialize `_root` from them, then decode the remaining fields with
`_root` in scope. -/
def rootRead (st : Bool) (fmt : Format) (fuel : Nat) (s : List Nat) :
    Option (Env × List Nat) :=
  let k := contextLen fmt.items
  match readItems st fmt (namedReader st fmt fuel) (fmt.items.take k) [] [] s with
  | none => none
  | some (ctxVals, s1) =>
    readItems st fmt (namedReader st fmt fuel) (fmt.items.drop k) ctxVals ctxVals s1

/-! ### Write side, `generation/writes.rs`

The generated `write` bodies append bytes to the sink; the embedding
returns the emitted byte list.  A write of a byte-slice to a `Vec` sink
never fails; the remaining failure modes (a value whose shape does not
match the schema, an undeclared type, a zero-fill of a type without a
schema-determined size) are modelled as `none`.  Neither the condition
expressions nor the count expressions are evaluated while writing. -/

/-- The three-case dispatch of `handle_simple_write`: numeric primitive
(`writer.write_<ty>::<E>(v)`), `bool` (`write_u8(if v { 1 } else { 0 })`),
or `#id.write(writer)` for a user-defined type. -/
def handleSimpleWrite (fmt : Format)
    (nw : String → List (String × Value) → Option (List Nat))
    (dt : DataType) (v : Value) : Option (List Nat) :=
  match dt with
  | .prim k =>
    match v with
    | .num x => some (natToBytes fmt.endianness k.width x)
    | _ => none
  | .boolean =>
    match v with
    | .bit b => some [if b then 1 else 0]
    | _ => none
  | .named t =>
    match v with
    | .record flds => nw t flds
    | _ => none

/-- `generate_conditional_write`: a present value runs the inner write; an
absent one emits a `size_of::<T>()` block of zero bytes when
`advance_if_false` is set and nothing otherwise. -/
def conditionalWrite (c : Condition) (inner : Value → Option (List Nat))
    (dt : DataType) (v : Value) : Option (List Nat) :=
  match v with
  | .opt (some x) => inner x
  | .opt none =>
    if c.advance_if_false then
      (sizeOfDataType dt).map (fun w => List.replicate w 0)
    else
      some []
  | _ => none

/-- `.map(|#id| #statement).collect::<Option<Vec<_>>>()` over the stored
elements: collect the per-element writes, short-circuiting on the first
failure. -/
def collectWrites (f : Value → Option (List Nat)) :
    List Value → Option (List (List Nat))
  | [] => some []
  | v :: rest =>
    match f v with
    | none => none
    | some bs =>
      match collectWrites f rest with
      | none => none
      | some bss => some (bs :: bss)

/-- `create_statement` (writing): `self.#id.iter().map(|#id| #statement)`
for repeated fields emits each stored element in order with the inner
write — the count expression is not consulted; otherwise the conditional
or plain inner write of `self.#id`. -/
def statementWrite (fmt : Format)
    (nw : String → List (String × Value) → Option (List Nat))
    (it : Item) (vals : List (String × Value)) : Option (List Nat) :=
  match assocGet it.id vals with
  | none => none
  | some v =>
    let base := handleSimpleWrite fmt nw it.data_type
    let withCond :=
      match it.condition with
      | some c => conditionalWrite c base it.data_type
      | none => base
    match it.repetition with
    | some (.count _) =>
      match v with
      | .arr l => (collectWrites withCond l).map List.flatten
      | _ => none
    | none => withCond v

/-- The sequence of write statements of a generated `write` body: emit
every field of the record in declared order. -/
def writeItems (fmt : Format)
    (nw : String → List (String × Value) → Option (List Nat)) :
    List Item → List (String × Value) → Option (List Nat)
  | [], _ => some []
  | it :: rest, vals =>
    match statementWrite fmt nw it vals with
    | none => none
    | some bs =>
      match writeItems fmt nw rest vals with
      | none => none
      | some bs2 => some (bs ++ bs2)

/-- `#id.write(writer)` for user-defined types. -/
def namedWriter (fmt : Format) :
    Nat → String → List (String × Value) → Option (List Nat)
  | 0 => fun _ _ => none
  | fuel + 1 => fun t flds =>
    match assocGet t fmt.types with
    | none => none
    | some its => writeItems fmt (namedWriter fmt fuel) its flds

/-- `generate_root_struct`'s `write`: emit all fields in declared order
(the writer neither re-derives the context nor evaluates expressions). -/
def rootWrite (fmt : Format) (fuel : Nat) (vals : Env) : Option (List Nat) :=
  writeItems fmt (namedWriter fmt fuel) fmt.items vals

/-! ### Well-formedness

Conditions under which the emitted Rust code compiles at all: field
identifiers of a struct are distinct, and no field is simultaneously
conditional and repeated (the composed statement would not type-check;
§4.3 of the design allows a field to be conditional xor repeated). -/

/-- A field is not both conditional and repeated. -/
def ItemWf (it : Item) : Prop := ¬(it.condition.isSome ∧ it.repetition.isSome)

instance (it : Item) : Decidable (ItemWf it) := by
  unfold ItemWf; infer_instance

/-- Distinct field names, each field conditional xor repeated (or neither). -/
def ItemsWf (its : List Item) : Prop :=
  (its.map Item.id).Nodup ∧ ∀ it ∈ its, ItemWf it

instance (its : List Item) : Decidable (ItemsWf its) := by
  unfold ItemsWf; infer_instance

/-- Schema well-formedness: the root item list and every declared type's
item list are well-formed. -/
def FormatWf (fmt : Format) : Prop :=
  ItemsWf fmt.items ∧ ∀ p ∈ fmt.types, ItemsWf p.2

instance (fmt : Format) : Decidable (FormatWf fmt) := by
  unfold FormatWf; infer_instance

/-! ### Schema parsing, `parse.rs`

The configuration document is a YAML value (`serde_yaml::Value`); the
embedding keeps the constructors the parser inspects and keys mappings by
strings (the only keys the parser ever looks up or converts with
`as_str`).  `syn::parse_str` calls on identifier / type / expression
strings are embedded as validity checks that keep the string as payload
(in particular an empty string never parses); the parsed schema of this
layer therefore carries expression *strings*, which the proc macro later
splices into the generated code. -/

/-- The YAML value shapes `parse.rs` inspects. -/
inductive Yaml where
  | str : String → Yaml
  | bool : Bool → Yaml
  | seq : List Yaml → Yaml
  | map : List (String × Yaml) → Yaml

/-- `Value::get` with a string index. -/
def Yaml.get (v : Yaml) (k : String) : Option Yaml :=
  match v with
  | .map m => assocGet k m
  | _ => none

/-- `Value::as_str`. -/
def Yaml.asStr : Yaml → Option String
  | .str s => some s
  | _ => none

/-- `Value::as_bool`. -/
def Yaml.asBool : Yaml → Option Bool
  | .bool b => some b
  | _ => none

/-- `Value::as_sequence`. -/
def Yaml.asSeq : Yaml → Option (List Yaml)
  | .seq xs => some xs
  | _ => none

/-- `Value::as_mapping`. -/
def Yaml.asMap : Yaml → Option (List (String × Yaml))
  | .map m => some m
  | _ => none

/-- `syn::parse_str::<Ident>`: a Rust identifier — nonempty, an alphabetic
character or underscore followed by alphanumerics or underscores. -/
def parse_ident (s : String) : Option String :=
  match s.data with
  | [] => none
  | c :: rest =>
    if (c.isAlpha || c == '_') && rest.all (fun d => d.isAlphanum || d == '_') then
      some s
    else
      none

/-- `syn::parse_str::<Type>` on the `type` string: `syn` rejects empty
input; finer syntactic validity is not needed by the parser, which stores
the type uninterpreted. -/
def parse_type_str (s : String) : Option String :=
  if s = "" then none else some s

/-- `syn::parse_str::<Expr>` on a condition or count string: `syn` rejects
empty input; the expression is stored uninterpreted. -/
def parse_expr_str (s : String) : Option String :=
  if s = "" then none else some s

/-- Parse-layer condition: expression string plus `advance_if_false`. -/
structure SynCondition where
  expression : String
  advance_if_false : Bool
  deriving DecidableEq

/-- Parse-layer repetition. -/
inductive SynRepetition where
  | count : String → SynRepetition
  deriving DecidableEq

/-- Parse-layer field descriptor. -/
structure SynItem where
  id : String
  data_type : String
  condition : Option SynCondition
  repetition : Option SynRepetition
  deriving DecidableEq

/-- Parse-layer schema. -/
structure SynFormat where
  endianness : Endianness
  types : List (String × List SynItem)
  items : List SynItem
  deriving DecidableEq

/-- `parse_meta`: big-endian exactly when the `endian` entry is the string
`"be"`, little-endian otherwise (including a missing entry or a non-mapping
`meta` value). -/
def parse_meta (meta : Yaml) : Endianness :=
  if ((meta.get "endian").bind Yaml.asStr) = some "be" then .big else .little

/-- `parse_repetition`: split at the first `(`, take the expression up to
the first `)`; only the `Count` discriminant is known, and its expression
must parse. -/
def parse_repetition (value : String) : Option SynRepetition :=
  let discriminant := String.mk (value.data.takeWhile (fun c => c != '('))
  let expression :=
    String.mk ((((value.data.dropWhile (fun c => c != '(')).drop 1)).takeWhile
      (fun c => c != ')'))
  if discriminant = "Count" then
    (parse_expr_str expression).map .count
  else
    none

/-- `parse_item`: `id` and `type` are required and must parse; an `if`
entry that is missing, non-string or unparsable yields no condition, a
`repeat` entry that is missing, non-string, of unknown kind or unparsable
yields no repetition; `advance_if_false` defaults to `false`. -/
def parse_item (item : List (String × Yaml)) : Option SynItem := do
  let id ← (assocGet "id" item).bind Yaml.asStr >>= parse_ident
  let data_type ← (assocGet "type" item).bind Yaml.asStr >>= parse_type_str
  let condition_expr :=
    ((assocGet "if" item).bind Yaml.asStr).bind parse_expr_str
  let repetition :=
    ((assocGet "repeat" item).bind Yaml.asStr).bind parse_repetition
  let advance_if_false :=
    (((assocGet "advance_if_false" item).bind Yaml.asBool)).getD false
  pure ⟨id, data_type,
    condition_expr.map (fun e => ⟨e, advance_if_false⟩), repetition⟩

/-- `parse_sequence`: `filter_map` — elements that are not mappings or do
not parse as items are dropped. -/
def parse_sequence (item : List Yaml) : List SynItem :=
  item.filterMap (fun v => (Yaml.asMap v).bind parse_item)

/-- `parse_defined_types`: entries whose name is not a valid identifier or
whose value is not a sequence are dropped. -/
def parse_defined_types (item : List (String × Yaml)) : List (String × List SynItem) :=
  item.filterMap (fun p => do
    let type_name ← parse_ident p.1
    let sq ← p.2.asSeq
    pure (type_name, parse_sequence sq))

/-- `parse_file`: the `meta`, `types` and `items` keys are all required
(each `get` is followed by `?`); `types` must be a mapping and `items` a
sequence. -/
def parse_file (items : List (String × Yaml)) : Option SynFormat := do
  let endianness := parse_meta (← assocGet "meta" items)
  let types := parse_defined_types (← (← assocGet "types" items).asMap)
  let root ← (← assocGet "items" items).asSeq
  pure ⟨endianness, types, parse_sequence root⟩

/-! ### Envelope codec, `savecodec/src/lib.rs`

The envelope transforms a raw byte payload to and from the save string
`"$" ++ 2-digit version ++ "s" ++ base64(zlib(cipher(raw))) ++ "$e"`.
The Vigenère/XOR stream cipher is implemented here from the source; the
zlib compressor/decompressor (`flate2`) and the base64 codec are external
library collaborators and are taken as function parameters — the design
treats them as opaque sequential transforms.  Save strings are embedded as
character lists; errors of either direction are collapsed to `none`. -/

/-- `CIPHER_KEY`: the bytes of `"therealmisalie"`. -/
def CIPHER_KEY : List Nat :=
  [116, 104, 101, 114, 101, 97, 108, 109, 105, 115, 97, 108, 105, 101]

/-- XOR the stream with the cycled key starting at key offset `i`
(`zip(CIPHER_KEY.iter().cycle())`). -/
def cipherFrom : Nat → List Nat → List Nat
  | _, [] => []
  | i, b :: rest =>
    (b ^^^ CIPHER_KEY.getD (i % CIPHER_KEY.length) 0) :: cipherFrom (i + 1) rest

/-- The stream cipher applied by both directions of the codec. -/
def cipher (bs : List Nat) : List Nat := cipherFrom 0 bs

/-- Decimal digit character. -/
def digitChar (n : Nat) : Char := Char.ofNat (48 + n)

/-- Decimal rendering of a `u16` (no padding). -/
def decimalRender (n : Nat) : List Char :=
  if n < 10 then [digitChar n]
  else if n < 100 then [digitChar (n / 10), digitChar (n % 10)]
  else if n < 1000 then [digitChar (n / 100), digitChar (n / 10 % 10), digitChar (n % 10)]
  else if n < 10000 then
    [digitChar (n / 1000), digitChar (n / 100 % 10), digitChar (n / 10 % 10),
     digitChar (n % 10)]
  else
    [digitChar (n / 10000), digitChar (n / 1000 % 10), digitChar (n / 100 % 10),
     digitChar (n / 10 % 10), digitChar (n % 10)]

/-- `format!("{version:02}")`: decimal, left-padded with `0` to at least
two digits. -/
def formatVersion (n : Nat) : List Char :=
  let ds := decimalRender n
  if ds.length < 2 then '0' :: ds else ds

/-- The save-string regex `^\$([0-9]{2})s(.*)\$e$`: anchored at both ends,
two digit characters after the leading `$`, then `s`, then the data run —
in which `.` matches any character except a newline — then the trailing
`$e`.  Returns (version digits, data). -/
def saveCaptures (s : List Char) : Option (List Char × List Char) :=
  match s with
  | c0 :: d1 :: d2 :: c3 :: rest =>
    if c0 = '$' ∧ c3 = 's' ∧ d1.isDigit ∧ d2.isDigit ∧ 2 ≤ rest.length
        ∧ rest.drop (rest.length - 2) = ['$', 'e']
        ∧ ∀ c ∈ rest.take (rest.length - 2), c ≠ '\n' then
      some ([d1, d2], rest.take (rest.length - 2))
    else
      none
  | _ => none

/-- `decode_to_raw`, parametrized by the base64 decoder and the zlib
decompressor: extract the data run, base64-decode it, inflate it, then
apply the stream cipher. -/
def decode_to_raw (inflate : List Nat → Option (List Nat))
    (b64d : List Char → Option (List Nat)) (save : List Char) :
    Option (List Nat) :=
  match saveCaptures save with
  | none => none
  | some (_, data) =>
    match b64d data with
    | none => none
    | some data =>
      match inflate data with
      | none => none
      | some out => some (cipher out)

/-- `encode_from_raw`, parametrized by the zlib compressor and the base64
encoder: cipher the payload, deflate it, base64-encode it, and wrap in
`"$" ++ {version:02} ++ "s" ++ ... ++ "$e"`. -/
def encode_from_raw (deflate : List Nat → List Nat)
    (b64e : List Nat → List Char) (data : List Nat) (version : Nat) :
    List Char :=
  let ciphered := cipher data
  let out := deflate ciphered
  let encoded := b64e out
  '$' :: formatVersion version ++ 's' :: encoded ++ ['$', 'e']

/-! ### Byte-level lemmas -/

theorem natToBytesLE_length (w v : Nat) : (natToBytesLE w v).length = w := by
  induction w generalizing v with
  | zero => rfl
  | succ w ih => simp [natToBytesLE, ih]

theorem natToBytes_length (e : Endianness) (w v : Nat) :
    (natToBytes e w v).length = w := by
  cases e <;> simp [natToBytes, natToBytesLE_length]

theorem bytesToNatLE_lt (bs : List Nat) : bytesToNatLE bs < 256 ^ bs.length := by
  induction bs with
  | nil => simp [bytesToNatLE]
  | cons b rest ih =>
    have hb : b % 256 < 256 := Nat.mod_lt _ (by norm_num)
    calc b % 256 + 256 * bytesToNatLE rest
        < 256 + 256 * bytesToNatLE rest := by omega
      _ ≤ 256 + 256 * (256 ^ rest.length - 1) := by
          have : bytesToNatLE rest ≤ 256 ^ rest.length - 1 := by
            have := ih; omega
          omega
      _ ≤ 256 ^ (rest.length + 1) := by
          have h1 : 1 ≤ 256 ^ rest.length := Nat.one_le_pow _ _ (by norm_num)
          have : 256 ^ (rest.length + 1) = 256 ^ rest.length * 256 := pow_succ 256 _
          omega

theorem bytesToNat_lt (e : Endianness) (bs : List Nat) :
    bytesToNat e bs < 256 ^ bs.length := by
  cases e with
  | little => exact bytesToNatLE_lt bs
  | big =>
    have := bytesToNatLE_lt bs.reverse
    simpa [bytesToNat] using this

theorem bytesToNatLE_natToBytesLE (w v : Nat) (h : v < 256 ^ w) :
    bytesToNatLE (natToBytesLE w v) = v := by
  induction w generalizing v with
  | zero => simp at h; simp [natToBytesLE, bytesToNatLE, h]
  | succ w ih =>
    have hdiv : v / 256 < 256 ^ w := by
      have h256 : (0 : Nat) < 256 := by norm_num
      rw [Nat.div_lt_iff_lt_mul h256]
      calc v < 256 ^ (w + 1) := h
        _ = 256 ^ w * 256 := pow_succ 256 w
    simp [natToBytesLE, bytesToNatLE, ih _ hdiv, Nat.mod_mod_of_dvd,
      Nat.mod_add_div]

theorem bytesToNat_natToBytes (e : Endianness) (w v : Nat) (h : v < 256 ^ w) :
    bytesToNat e (natToBytes e w v) = v := by
  cases e with
  | little => exact bytesToNatLE_natToBytesLE w v h
  | big => simpa [bytesToNat, natToBytes] using bytesToNatLE_natToBytesLE w v h

/-- A primitive read succeeds on the bytes of a primitive write (of an
in-range bit pattern) followed by anything, recovering the pattern and
leaving the trailing bytes untouched. -/
theorem readPrim_natToBytes (e : Endianness) (w v : Nat) (extra : List Nat)
    (h : v < 256 ^ w) :
    readPrim e w (natToBytes e w v ++ extra) = some (v, extra) := by
  have hlen : (natToBytes e w v).length = w := natToBytes_length e w v
  unfold readPrim
  rw [if_pos (by simp [hlen])]
  rw [List.take_append_of_le_length (by omega), List.drop_append_of_le_length (by omega)]
  rw [List.take_of_length_le (by omega), List.drop_eq_nil_of_le (by omega)]
  simp [bytesToNat_natToBytes e w v h]

/-- A successful primitive read yields an in-range bit pattern and the
dropped suffix. -/
theorem readPrim_eq_some (e : Endianness) (w : Nat) (s : List Nat) (v : Nat)
    (s2 : List Nat) (h : readPrim e w s = some (v, s2)) :
    v < 256 ^ w ∧ s2 = s.drop w ∧ w ≤ s.length := by
  unfold readPrim at h
  by_cases hw : w ≤ s.length
  · rw [if_pos hw] at h
    obtain ⟨h1, h2⟩ := Prod.mk.injEq .. ▸ Option.some.injEq .. ▸ h
    refine ⟨?_, by simp_all, hw⟩
    have := bytesToNat_lt e (s.take w)
    rw [List.length_take, Nat.min_eq_left hw] at this
    omega
  · rw [if_neg hw] at h; cases h

/-! ### Association-list lemmas -/

theorem assocGet_append_left (k : String) (l1 l2 : List (String × α)) (v : α)
    (h : assocGet k l1 = some v) : assocGet k (l1 ++ l2) = some v := by
  induction l1 with
  | nil => cases h
  | cons p rest ih =>
    obtain ⟨k2, w⟩ := p
    simp only [assocGet, List.cons_append] at h ⊢
    by_cases hk : k = k2
    · simpa [hk] using h
    · rw [if_neg hk] at h ⊢
      exact ih h

theorem assocGet_append_right (k : String) (l1 l2 : List (String × α))
    (h : k ∉ l1.map Prod.fst) : assocGet k (l1 ++ l2) = assocGet k l2 := by
  induction l1 with
  | nil => rfl
  | cons p rest ih =>
    obtain ⟨k2, w⟩ := p
    simp only [List.map_cons, List.mem_cons] at h
    push_neg at h
    simp only [assocGet, List.cons_append]
    rw [if_neg h.1]
    exact ih h.2

theorem assocGet_self_of_nodup (l : List (String × α)) (p : String × α)
    (hnd : (l.map Prod.fst).Nodup) (hp : p ∈ l) : assocGet p.1 l = some p.2 := by
  induction l with
  | nil => cases hp
  | cons q rest ih =>
    obtain ⟨k2, w⟩ := q
    simp only [List.map_cons, List.nodup_cons] at hnd
    rcases List.mem_cons.mp hp with h | h
    · subst h
      simp [assocGet]
    · have hne : p.1 ≠ k2 := by
        intro he
        exact hnd.1 (he ▸ List.mem_map_of_mem Prod.fst h)
      simp only [assocGet]
      rw [if_neg hne]
      exact ih hnd.2 h

theorem assocGet_mem (k : String) (l : List (String × α)) (v : α)
    (h : assocGet k l = some v) : (k, v) ∈ l := by
  induction l with
  | nil => cases h
  | cons p rest ih =>
    obtain ⟨k2, w⟩ := p
    simp only [assocGet] at h
    by_cases hk : k = k2
    · rw [if_pos hk] at h
      obtain rfl := Option.some.injEq .. ▸ h
      subst hk
      exact List.mem_cons_self _ _
    · rw [if_neg hk] at h
      exact List.mem_cons_of_mem _ (ih h)

/-! ### Encode/decode round trip

The central induction: a value obtained by a *strict* decode (one in which
every conditional field's inner read succeeded whenever its condition
held, so that absence always came from a false condition) is written back
successfully, and re-decoding the written bytes — with the emitted code's
own tolerant semantics, and with arbitrary trailing bytes — recovers the
value exactly and leaves the trailing bytes unread.  The statement is
stratified along the fuel-indexed reader/writer for named types. -/

/-- Round trip at the level of named-type decode/encode. -/
def NamedRT (fmt : Format) (fuel : Nat) : Prop :=
  ∀ t ctx s v s2,
    namedReader true fmt fuel t ctx s = some (v, s2) →
    ∃ flds out, v = .record flds ∧
      namedWriter fmt fuel t flds = some out ∧
      ∀ extra, namedReader false fmt fuel t ctx (out ++ extra) = some (v, extra)

/-- Round trip at the level of the base (primitive/bool/composite) reads. -/
def BaseRT (fmt : Format) (fuel : Nat) : Prop :=
  ∀ dt ctx s v s2,
    handleSimpleRead fmt (namedReader true fmt fuel) dt ctx s = some (v, s2) →
    ∃ bs, handleSimpleWrite fmt (namedWriter fmt fuel) dt v = some bs ∧
      ∀ extra,
        handleSimpleRead fmt (namedReader false fmt fuel) dt ctx (bs ++ extra) =
          some (v, extra)

/-- Round trip at the level of a whole field statement. -/
def StmtRT (fmt : Format) (fuel : Nat) : Prop :=
  ∀ it ctx locals s v s2,
    ItemWf it →
    statementRead true fmt (namedReader true fmt fuel) it ctx locals s = some (v, s2) →
    ∃ bs,
      (∀ env, assocGet it.id env = some v →
        statementWrite fmt (namedWriter fmt fuel) it env = some bs) ∧
      ∀ extra,
        statementRead false fmt (namedReader false fmt fuel) it ctx locals (bs ++ extra) =
          some (v, extra)

/-- Round trip at the level of an item sequence. -/
def ItemsRT (fmt : Format) (fuel : Nat) : Prop :=
  ∀ its ctx locals s locals2 rest2,
    (∀ it ∈ its, ItemWf it) →
    readItems true fmt (namedReader true fmt fuel) its ctx locals s = some (locals2, rest2) →
    ∃ pairs, locals2 = locals ++ pairs ∧
      pairs.map Prod.fst = its.map Item.id ∧
      ∀ env, (∀ p ∈ pairs, assocGet p.1 env = some p.2) →
        ∃ out, writeItems fmt (namedWriter fmt fuel) its env = some out ∧
          ∀ extra,
            readItems false fmt (namedReader false fmt fuel) its ctx locals (out ++ extra) =
              some (locals2, extra)

theorem base_rt {fmt : Format} {fuel : Nat} (hN : NamedRT fmt fuel) :
    BaseRT fmt fuel := by
  intro dt ctx s v s2 h
  cases dt with
  | prim k =>
    simp only [handleSimpleRead, Option.map_eq_some'] at h
    obtain ⟨⟨x, s2'⟩, hx, hv⟩ := h
    obtain ⟨hv1, hv2⟩ := Prod.mk.injEq .. ▸ hv
    obtain ⟨hlt, -, -⟩ := readPrim_eq_some _ _ _ _ _ hx
    refine ⟨natToBytes fmt.endianness k.width x, ?_, ?_⟩
    · simp [handleSimpleWrite, ← hv1]
    · intro extra
      simp [handleSimpleRead, readPrim_natToBytes _ _ _ _ hlt, ← hv1, hv2]
  | boolean =>
    cases s with
    | nil => simp [handleSimpleRead] at h
    | cons b rest =>
      simp only [handleSimpleRead, Option.some.injEq] at h
      obtain ⟨hv1, hv2⟩ := Prod.mk.injEq .. ▸ h
      refine ⟨[if b % 256 != 0 then 1 else 0], ?_, ?_⟩
      · simp [handleSimpleWrite, ← hv1]
      · intro extra
        rcases hb : b % 256 != 0 with _ | _ <;>
          simp_all [handleSimpleRead, ← hv1, hv2]
  | named t =>
    obtain ⟨flds, out, hv, hw, hr⟩ := hN t ctx s v s2 h
    refine ⟨out, ?_, ?_⟩
    · simp [handleSimpleWrite, hv, hw]
    · intro extra
      simpa [handleSimpleRead] using hr extra

/-- Generic round trip for the repetition loop: if a single inner
statement round-trips, so does its `n`-fold iteration, emitting the
concatenation of the element writes. -/
theorem repeated_rt (rdS rdT : List Nat → Option (Value × List Nat))
    (wr : Value → Option (List Nat))
    (hb : ∀ s v s2, rdS s = some (v, s2) →
      ∃ bs, wr v = some bs ∧ ∀ extra, rdT (bs ++ extra) = some (v, extra)) :
    ∀ n s vs s2, repeatedRead rdS n s = some (vs, s2) →
      ∃ bss, collectWrites wr vs = some bss ∧
        ∀ extra, repeatedRead rdT n (bss.flatten ++ extra) = some (vs, extra) := by
  intro n
  induction n with
  | zero =>
    intro s vs s2 h
    simp only [repeatedRead, Option.some.injEq, Prod.mk.injEq] at h
    obtain ⟨hv, -⟩ := h
    refine ⟨[], by simp [← hv, collectWrites], ?_⟩
    intro extra
    simp [repeatedRead, ← hv]
  | succ n ih =>
    intro s vs s2 h
    simp only [repeatedRead] at h
    cases hx : rdS s with
    | none => simp only [hx] at h; exact Option.noConfusion h
    | some p =>
      obtain ⟨v, s2'⟩ := p
      simp only [hx] at h
      cases hy : repeatedRead rdS n s2' with
      | none => simp only [hy] at h; exact Option.noConfusion h
      | some q =>
        obtain ⟨vs', s3⟩ := q
        simp only [hy, Option.some.injEq, Prod.mk.injEq] at h
        obtain ⟨hv1, hv2⟩ := h
        obtain ⟨bs, hw, hr⟩ := hb _ _ _ hx
        obtain ⟨bss, hws, hrs⟩ := ih _ _ _ hy
        refine ⟨bs :: bss, by simp [← hv1, collectWrites, hw, hws], ?_⟩
        intro extra
        simp only [repeatedRead, List.flatten_cons, List.append_assoc,
          hr (bss.flatten ++ extra), hrs extra]
        simp [← hv1]

theorem stmt_rt {fmt : Format} {fuel : Nat} (hB : BaseRT fmt fuel) :
    StmtRT fmt fuel := by
  intro it ctx locals s v s2 hwf h
  obtain ⟨id, dt, cond, rep⟩ := it
  cases rep with
  | some r =>
    obtain ⟨e⟩ := r
    -- a repeated field is unconditional by well-formedness
    have hcnone : cond = none := by
      cases cond with
      | none => rfl
      | some c => exact absurd ⟨rfl, rfl⟩ hwf
    subst hcnone
    simp only [statementRead, Option.map_eq_some'] at h
    obtain ⟨⟨vs, s2'⟩, hvs, hv⟩ := h
    simp only [Prod.mk.injEq] at hv
    obtain ⟨hv1, hv2⟩ := hv
    obtain ⟨bss, hws, hrs⟩ :=
      repeated_rt _ _ _ (fun s3 v3 s4 h3 => hB dt ctx s3 v3 s4 h3) _ _ _ _ hvs
    refine ⟨bss.flatten, ?_, ?_⟩
    · intro env henv
      simp only at henv
      simp only [statementWrite, henv, ← hv1]
      simp [hws]
    · intro extra
      simp only [statementRead]
      rw [hrs extra]
      simp [← hv1, hv2]
  | none =>
    cases cond with
    | none =>
      simp only [statementRead] at h
      obtain ⟨bs, hw, hr⟩ := hB dt ctx s v s2 h
      refine ⟨bs, ?_, ?_⟩
      · intro env henv
        simp only at henv
        simp [statementWrite, henv, hw]
      · intro extra
        simp only [statementRead]
        exact hr extra
    | some c =>
      simp only [statementRead, conditionalRead] at h
      by_cases hc : c.expression ctx locals
      · rw [if_pos hc] at h
        cases hx : handleSimpleRead fmt (namedReader true fmt fuel) dt ctx s with
        | none => simp only [hx] at h; simp at h
        | some p =>
          obtain ⟨x, s2'⟩ := p
          simp only [hx, Option.some.injEq, Prod.mk.injEq] at h
          obtain ⟨hv1, hv2⟩ := h
          obtain ⟨bs, hw, hr⟩ := hB dt ctx s x s2' hx
          refine ⟨bs, ?_, ?_⟩
          · intro env henv
            simp only at henv
            simp [statementWrite, henv, conditionalWrite, ← hv1, hw]
          · intro extra
            simp only [statementRead, conditionalRead, if_pos hc]
            rw [hr extra]
            simp [← hv1, hv2]
      · rw [if_neg hc] at h
        by_cases ha : c.advance_if_false
        · rw [if_pos ha] at h
          cases hsz : sizeOfDataType dt with
          | none => simp only [hsz] at h; exact Option.noConfusion h
          | some w =>
            simp only [hsz] at h
            by_cases hlen : w ≤ s.length
            · rw [if_pos hlen] at h
              simp only [Option.some.injEq, Prod.mk.injEq] at h
              obtain ⟨hv1, hv2⟩ := h
              refine ⟨List.replicate w 0, ?_, ?_⟩
              · intro env henv
                simp only at henv
                simp [statementWrite, henv, conditionalWrite, ← hv1, if_pos ha, hsz]
              · intro extra
                simp only [statementRead, conditionalRead, if_neg hc, if_pos ha, hsz]
                rw [if_pos (by simp)]
                simp [← hv1, ← hv2, List.drop_append_of_le_length]
            · rw [if_neg hlen] at h; cases h
        · rw [if_neg ha] at h
          simp only [Option.some.injEq, Prod.mk.injEq] at h
          obtain ⟨hv1, hv2⟩ := h
          refine ⟨[], ?_, ?_⟩
          · intro env henv
            simp only at henv
            simp [statementWrite, henv, conditionalWrite, ← hv1, if_neg ha]
          · intro extra
            simp only [statementRead, conditionalRead, if_neg hc, if_neg ha]
            simp [← hv1, hv2]

theorem items_rt {fmt : Format} {fuel : Nat} (hS : StmtRT fmt fuel) :
    ItemsRT fmt fuel := by
  intro its
  induction its with
  | nil =>
    intro ctx locals s locals2 rest2 hwf h
    simp only [readItems, Option.some.injEq, Prod.mk.injEq] at h
    obtain ⟨h1, h2⟩ := h
    refine ⟨[], by simp [← h1], by simp, ?_⟩
    intro env henv
    refine ⟨[], rfl, ?_⟩
    intro extra
    simp [readItems, ← h1]
  | cons it rest ih =>
    intro ctx locals s locals2 rest2 hwf h
    simp only [readItems] at h
    cases hx : statementRead true fmt (namedReader true fmt fuel) it ctx locals s with
    | none => simp only [hx] at h; exact Option.noConfusion h
    | some p =>
      obtain ⟨v, s2⟩ := p
      simp only [hx] at h
      obtain ⟨pairs', heq, hids, hrest⟩ :=
        ih ctx (locals ++ [(it.id, v)]) s2 locals2 rest2
          (fun i hi => hwf i (List.mem_cons_of_mem _ hi)) h
      obtain ⟨bs, hw, hr⟩ := hS it ctx locals s v s2 (hwf it (List.mem_cons_self ..)) hx
      refine ⟨(it.id, v) :: pairs', by simp [heq], by simp [hids], ?_⟩
      intro env henv
      have hv : assocGet it.id env = some v := henv _ (List.mem_cons_self ..)
      obtain ⟨out', hw', hr'⟩ := hrest env (fun p hp => henv p (List.mem_cons_of_mem _ hp))
      refine ⟨bs ++ out', ?_, ?_⟩
      · simp only [writeItems, hw env hv, hw']
      · intro extra
        rw [List.append_assoc]
        simp only [readItems, hr (out' ++ extra)]
        exact hr' extra

theorem named_rt_zero (fmt : Format) : NamedRT fmt 0 := by
  intro t ctx s v s2 h
  simp only [namedReader] at h
  exact Option.noConfusion h

theorem named_rt_succ {fmt : Format} {f : Nat} (hfmt : FormatWf fmt)
    (hI : ItemsRT fmt f) : NamedRT fmt (f + 1) := by
  intro t ctx s v s2 h
  simp only [namedReader] at h
  cases ht : assocGet t fmt.types with
  | none => simp only [ht] at h; exact Option.noConfusion h
  | some its =>
    simp only [ht] at h
    cases hr0 : readItems true fmt (namedReader true fmt f) its ctx [] s with
    | none => simp only [hr0] at h; exact Option.noConfusion h
    | some q =>
      obtain ⟨vals, s2'⟩ := q
      simp only [hr0, Option.some.injEq, Prod.mk.injEq] at h
      obtain ⟨hv, hs2⟩ := h
      have hwf_its : ItemsWf its := hfmt.2 (t, its) (assocGet_mem _ _ _ ht)
      obtain ⟨pairs, heq, hids, hrest⟩ := hI its ctx [] s vals s2' hwf_its.2 hr0
      simp only [List.nil_append] at heq
      have hnd : (pairs.map Prod.fst).Nodup := by rw [hids]; exact hwf_its.1
      obtain ⟨out, hw, hre⟩ := hrest vals (fun p hp => by
        rw [heq]; exact assocGet_self_of_nodup pairs p hnd hp)
      refine ⟨vals, out, hv.symm, ?_, ?_⟩
      · simp only [namedWriter, ht]
        exact hw
      · intro extra
        simp only [namedReader, ht, hre extra]
        rw [hv]

theorem items_rt_all {fmt : Format} (hfmt : FormatWf fmt) :
    ∀ fuel, ItemsRT fmt fuel := by
  intro fuel
  induction fuel with
  | zero => exact items_rt (stmt_rt (base_rt (named_rt_zero fmt)))
  | succ f ih => exact items_rt (stmt_rt (base_rt (named_rt_succ hfmt ih)))

theorem writeItems_append {fmt : Format}
    {nw : String → List (String × Value) → Option (List Nat)}
    {a b : List Item} {env : List (String × Value)} {out1 out2 : List Nat}
    (hw1 : writeItems fmt nw a env = some out1)
    (hw2 : writeItems fmt nw b env = some out2) :
    writeItems fmt nw (a ++ b) env = some (out1 ++ out2) := by
  induction a generalizing out1 with
  | nil =>
    simp only [writeItems, Option.some.injEq] at hw1
    subst hw1
    simpa using hw2
  | cons it rest ih =>
    simp only [writeItems] at hw1
    cases hx : statementWrite fmt nw it env with
    | none => simp only [hx] at hw1; exact Option.noConfusion hw1
    | some bs =>
      simp only [hx] at hw1
      cases hy : writeItems fmt nw rest env with
      | none => simp only [hy] at hw1; exact Option.noConfusion hw1
      | some bs2 =>
        simp only [hy, Option.some.injEq] at hw1
        simp only [List.cons_append, writeItems, hx, List.append_eq, ih hy]
        rw [← hw1, List.append_assoc]

/-- Root-level round trip: a strictly decoded root value is written back,
and re-decoding the written bytes with the emitted (tolerant) decoder,
followed by arbitrary trailing bytes, recovers the value and leaves the
trailing bytes unconsumed. -/
theorem root_rt {fmt : Format} (hfmt : FormatWf fmt) (fuel : Nat)
    (s : List Nat) (vals : Env) (rest : List Nat)
    (h : rootRead true fmt fuel s = some (vals, rest)) :
    ∃ out, rootWrite fmt fuel vals = some out ∧
      ∀ extra, rootRead false fmt fuel (out ++ extra) = some (vals, extra) := by
  simp only [rootRead] at h
  cases h1 : readItems true fmt (namedReader true fmt fuel)
      (fmt.items.take (contextLen fmt.items)) [] [] s with
  | none => simp only [h1] at h; exact Option.noConfusion h
  | some p =>
    obtain ⟨cv, s1⟩ := p
    simp only [h1] at h
    have hI := items_rt_all hfmt fuel
    have hwf1 : ∀ it ∈ fmt.items.take (contextLen fmt.items), ItemWf it :=
      fun it hi => hfmt.1.2 it (List.take_subset _ _ hi)
    have hwf2 : ∀ it ∈ fmt.items.drop (contextLen fmt.items), ItemWf it :=
      fun it hi => hfmt.1.2 it (List.drop_subset _ _ hi)
    obtain ⟨pairs1, heq1, hids1, hrest1⟩ := hI _ _ _ _ _ _ hwf1 h1
    obtain ⟨pairs2, heq2, hids2, hrest2⟩ := hI _ _ _ _ _ _ hwf2 h
    simp only [List.nil_append] at heq1
    have hnodup : ((fmt.items.take (contextLen fmt.items)).map Item.id ++
        (fmt.items.drop (contextLen fmt.items)).map Item.id).Nodup := by
      rw [← List.map_append, List.take_append_drop]
      exact hfmt.1.1
    rw [List.nodup_append] at hnodup
    obtain ⟨hnd1, hnd2, hdisj⟩ := hnodup
    have hnd1p : (pairs1.map Prod.fst).Nodup := by rw [hids1]; exact hnd1
    have hnd2p : (pairs2.map Prod.fst).Nodup := by rw [hids2]; exact hnd2
    have henv1 : ∀ p ∈ pairs1, assocGet p.1 vals = some p.2 := by
      intro p hp
      rw [heq2, heq1]
      exact assocGet_append_left _ _ _ _ (assocGet_self_of_nodup pairs1 p hnd1p hp)
    have henv2 : ∀ p ∈ pairs2, assocGet p.1 vals = some p.2 := by
      intro p hp
      rw [heq2, heq1]
      have hnotin : p.1 ∉ pairs1.map Prod.fst := by
        rw [hids1]
        intro hmem
        exact hdisj hmem (by rw [← hids2]; exact List.mem_map_of_mem Prod.fst hp)
      rw [assocGet_append_right _ _ _ hnotin]
      exact assocGet_self_of_nodup pairs2 p hnd2p hp
    obtain ⟨out1, hw1, hre1⟩ := hrest1 vals henv1
    obtain ⟨out2, hw2, hre2⟩ := hrest2 vals henv2
    refine ⟨out1 ++ out2, ?_, ?_⟩
    · have happ := writeItems_append hw1 hw2
      rw [List.take_append_drop] at happ
      simp only [rootWrite]
      exact happ
    · intro extra
      simp only [rootRead]
      rw [List.append_assoc]
      simp only [hre1 (out2 ++ extra)]
      exact hre2 extra

/-! ### Strict decodes agree with the emitted decoder

Wherever the strict decode succeeds, the emitted (tolerant) decode runs
through exactly the same branches — the two differ only on the
failure-masking branch, which a successful strict run never takes — and
returns the same result on the same input. -/

/-- Agreement at the level of an item sequence. -/
def ItemsAgree (fmt : Format) (fuel : Nat) : Prop :=
  ∀ its ctx locals s r,
    readItems true fmt (namedReader true fmt fuel) its ctx locals s = some r →
    readItems false fmt (namedReader false fmt fuel) its ctx locals s = some r

/-- Agreement at the level of named-type decodes. -/
def NamedAgree (fmt : Format) (fuel : Nat) : Prop :=
  ∀ t ctx s r,
    namedReader true fmt fuel t ctx s = some r →
    namedReader false fmt fuel t ctx s = some r

theorem base_agree {fmt : Format} {fuel : Nat} (hN : NamedAgree fmt fuel) :
    ∀ dt ctx s r,
      handleSimpleRead fmt (namedReader true fmt fuel) dt ctx s = some r →
      handleSimpleRead fmt (namedReader false fmt fuel) dt ctx s = some r := by
  intro dt ctx s r h
  cases dt with
  | prim k => exact h
  | boolean => exact h
  | named t => exact hN t ctx s r h

theorem repeated_agree (innerS innerT : List Nat → Option (Value × List Nat))
    (hb : ∀ s r, innerS s = some r → innerT s = some r) :
    ∀ n s r, repeatedRead innerS n s = some r → repeatedRead innerT n s = some r := by
  intro n
  induction n with
  | zero => intro s r h; exact h
  | succ n ih =>
    intro s r h
    simp only [repeatedRead] at h ⊢
    cases hx : innerS s with
    | none => simp only [hx] at h; exact Option.noConfusion h
    | some p =>
      obtain ⟨v, s2⟩ := p
      simp only [hx] at h
      cases hy : repeatedRead innerS n s2 with
      | none => simp only [hy] at h; exact Option.noConfusion h
      | some q =>
        simp only [hy] at h
        simp only [hb s (v, s2) hx, ih s2 q hy]
        exact h

theorem stmt_agree {fmt : Format} {fuel : Nat} (hN : NamedAgree fmt fuel) :
    ∀ it ctx locals s r,
      statementRead true fmt (namedReader true fmt fuel) it ctx locals s = some r →
      statementRead false fmt (namedReader false fmt fuel) it ctx locals s = some r := by
  intro it ctx locals s r h
  obtain ⟨id, dt, cond, rep⟩ := it
  have hbase := base_agree hN dt ctx
  have hcond : ∀ s0 r0,
      (match cond with
       | some c => fun s2 => conditionalRead true c
          (fun s3 => handleSimpleRead fmt (namedReader true fmt fuel) dt ctx s3) dt ctx locals s2
       | none => fun s2 => handleSimpleRead fmt (namedReader true fmt fuel) dt ctx s2) s0 = some r0 →
      (match cond with
       | some c => fun s2 => conditionalRead false c
          (fun s3 => handleSimpleRead fmt (namedReader false fmt fuel) dt ctx s3) dt ctx locals s2
       | none => fun s2 => handleSimpleRead fmt (namedReader false fmt fuel) dt ctx s2) s0 = some r0 := by
    intro s0 r0 h0
    cases cond with
    | none => exact hbase s0 r0 h0
    | some c =>
      simp only [conditionalRead] at h0 ⊢
      by_cases hc : c.expression ctx locals
      · rw [if_pos hc] at h0 ⊢
        cases hx : handleSimpleRead fmt (namedReader true fmt fuel) dt ctx s0 with
        | none => simp only [hx] at h0; simp at h0
        | some p =>
          simp only [hx] at h0
          simp only [hbase s0 p hx]
          exact h0
      · rw [if_neg hc] at h0 ⊢
        exact h0
  cases rep with
  | none =>
    simp only [statementRead] at h ⊢
    exact hcond s r h
  | some rr =>
    obtain ⟨e⟩ := rr
    simp only [statementRead, Option.map_eq_some'] at h ⊢
    obtain ⟨p, hp, hr⟩ := h
    exact ⟨p, repeated_agree _ _ hcond (e ctx locals) s p hp, hr⟩

theorem items_agree {fmt : Format} {fuel : Nat} (hN : NamedAgree fmt fuel) :
    ItemsAgree fmt fuel := by
  intro its
  induction its with
  | nil => intro ctx locals s r h; exact h
  | cons it rest ih =>
    intro ctx locals s r h
    simp only [readItems] at h ⊢
    cases hx : statementRead true fmt (namedReader true fmt fuel) it ctx locals s with
    | none => simp only [hx] at h; exact Option.noConfusion h
    | some p =>
      obtain ⟨v, s2⟩ := p
      simp only [hx] at h
      simp only [stmt_agree hN it ctx locals s (v, s2) hx]
      exact ih ctx (locals ++ [(it.id, v)]) s2 r h

theorem named_agree {fmt : Format} : ∀ fuel, NamedAgree fmt fuel := by
  intro fuel
  induction fuel with
  | zero => intro t ctx s r h; exact h
  | succ f ih =>
    intro t ctx s r h
    simp only [namedReader] at h ⊢
    cases ht : assocGet t fmt.types with
    | none => simp only [ht] at h; exact Option.noConfusion h
    | some its =>
      simp only [ht] at h ⊢
      cases hr : readItems true fmt (namedReader true fmt f) its ctx [] s with
      | none => simp only [hr] at h; exact Option.noConfusion h
      | some q =>
        simp only [hr] at h
        simp only [items_agree ih its ctx [] s q hr]
        exact h

/-- A successful strict root decode is also a run of the emitted decoder
with the same result. -/
theorem rootRead_strict_agree {fmt : Format} (fuel : Nat) (s : List Nat)
    (r : Env × List Nat) (h : rootRead true fmt fuel s = some r) :
    rootRead false fmt fuel s = some r := by
  simp only [rootRead] at h ⊢
  cases h1 : readItems true fmt (namedReader true fmt fuel)
      (fmt.items.take (contextLen fmt.items)) [] [] s with
  | none => simp only [h1] at h; exact Option.noConfusion h
  | some p =>
    obtain ⟨cv, s1⟩ := p
    simp only [h1] at h
    simp only [items_agree (named_agree fuel) _ _ _ _ _ h1]
    exact items_agree (named_agree fuel) _ _ _ _ _ h

/-! ### Concrete schemas used by witnesses and counterexamples -/

/-- One `u8` context field, then a conditional `u8` whose condition is
always true, with `advance_if_false` set. -/
def exCondFmtAdvance : Format :=
  ⟨.little, [],
   [⟨"a", .prim .u8, none, none⟩,
    ⟨"b", .prim .u8, some ⟨fun _ _ => true, true⟩, none⟩]⟩

/-- One `u8` context field, then a conditional `u8` whose condition is
always true, without `advance_if_false`. -/
def exCondFmtPlain : Format :=
  ⟨.little, [],
   [⟨"a", .prim .u8, none, none⟩,
    ⟨"b", .prim .u8, some ⟨fun _ _ => true, false⟩, none⟩]⟩

/-- The worked scenario of the design document: little-endian root
`[version: u16, count: u8, flag: bool if (count > 0) advance_if_false,
items: u32 repeat Count(count)]`. -/
def exScenarioFmt : Format :=
  ⟨.little, [],
   [⟨"version", .prim .u16, none, none⟩,
    ⟨"count", .prim .u8, none, none⟩,
    ⟨"flag", .boolean,
      some ⟨fun _ locals =>
        match assocGet "count" locals with
        | some (.num n) => decide (0 < n)
        | _ => false, true⟩, none⟩,
    ⟨"items", .prim .u32, none,
      some (.count (fun _ locals =>
        match assocGet "count" locals with
        | some (.num n) => n
        | _ => 0))⟩]⟩

/-! ### C1: round-trip identity -/

/-- C1 (counterexample): decode/encode/decode is not the identity on every
successfully decoded value.  With root `[a: u8, b: u8 if true
advance_if_false]`, the one-byte stream `[5]` decodes successfully (the
conditional read of `b` swallows the truncation and yields absence), but
encoding the result zero-fills the absent `b`, and re-decoding reads that
zero byte as a present `b = 0`: a different value. -/
theorem C1_counterexample :
    rootRead false exCondFmtAdvance 1 [5] =
      some ([("a", .num 5), ("b", .opt none)], [])
    ∧ rootWrite exCondFmtAdvance 1 [("a", .num 5), ("b", .opt none)] = some [5, 0]
    ∧ rootRead false exCondFmtAdvance 1 [5, 0] =
      some ([("a", .num 5), ("b", .opt (some (.num 0)))], [])
    ∧ ([("a", Value.num 5), ("b", Value.opt (some (Value.num 0)))] : Env) ≠
      [("a", Value.num 5), ("b", Value.opt none)] :=
  ⟨rfl, rfl, rfl, by simp⟩

/-- C1 (amended): round-trip identity holds for every well-formed schema
(distinct field names per struct, no field both conditional and repeated)
and every value obtained by a decode in which no inner read failure was
masked by a true condition (the strict decode): the value is also what
the generated decoder itself returns on those bytes, it encodes
successfully, and decoding the encoded bytes with the generated decoder
returns exactly that value, consuming the whole stream. -/
theorem C1_round_trip (fmt : Format) (fuel : Nat) (s : List Nat) (vals : Env)
    (rest : List Nat) (hfmt : FormatWf fmt)
    (h : rootRead true fmt fuel s = some (vals, rest)) :
    rootRead false fmt fuel s = some (vals, rest) ∧
    ∃ out, rootWrite fmt fuel vals = some out ∧
      rootRead false fmt fuel out = some (vals, []) := by
  obtain ⟨out, hw, hr⟩ := root_rt hfmt fuel s vals rest h
  exact ⟨rootRead_strict_agree fuel s (vals, rest) h, out, hw, by simpa using hr []⟩

/-- C1 witness: the design document's worked scenario round-trips. -/
theorem C1_round_trip_witness :
    rootRead false exScenarioFmt 1 [2, 0, 3, 1, 5, 0, 0, 0, 6, 0, 0, 0, 7, 0, 0, 0] =
      some ([("version", .num 2), ("count", .num 3), ("flag", .opt (some (.bit true))),
             ("items", .arr [.num 5, .num 6, .num 7])], [])
    ∧ ∃ out, rootWrite exScenarioFmt 1
        [("version", .num 2), ("count", .num 3), ("flag", .opt (some (.bit true))),
         ("items", .arr [.num 5, .num 6, .num 7])] = some out ∧
      rootRead false exScenarioFmt 1 out =
        some ([("version", .num 2), ("count", .num 3), ("flag", .opt (some (.bit true))),
               ("items", .arr [.num 5, .num 6, .num 7])], []) :=
  C1_round_trip exScenarioFmt 1 [2, 0, 3, 1, 5, 0, 0, 0, 6, 0, 0, 0, 7, 0, 0, 0] _ []
    (by decide) rfl

/-! ### C3: whole-decode failure policy -/

/-- C3 (counterexample): a field decode failure does not always abort the
whole decode.  With root `[a: u8, b: u8 if true]`, decoding `[5]` exhausts
the stream at `b` while `b`'s condition is true (the inner one-byte read
fails), yet the whole decode succeeds and returns a record with `b`
absent. -/
theorem C3_counterexample :
    readPrim Endianness.little 1 [] = none
    ∧ rootRead false exCondFmtPlain 1 [5] =
      some ([("a", .num 5), ("b", .opt none)], []) :=
  ⟨rfl, rfl⟩

/-- C3 (amended): an unconditional, non-repeated field whose base read
fails aborts the entire decode of the enclosing type (no record is
returned); but a conditional field whose condition evaluates true and
whose inner read fails does not abort — the field decodes as absent and
the decode continues.  The continuation point is stated for primitive and
`bool` fields, whose failed reads consume nothing (the byte-slice
`read_exact` checks the length before consuming), so the decode continues
on the unconsumed stream; a failed composite inner read instead leaves
the reader wherever its partial decode stopped, which the pure-reader
embedding does not track, so no continuation point is asserted for
conditional composite fields. -/
theorem C3_failure_policy :
    (∀ (st : Bool) (fmt : Format) nr (it : Item) (rest : List Item)
        (ctx locals : Env) (s : List Nat),
      it.condition = none → it.repetition = none →
      handleSimpleRead fmt nr it.data_type ctx s = none →
      readItems st fmt nr (it :: rest) ctx locals s = none)
    ∧ (∀ (fmt : Format) nr (it : Item) (c : Condition) (rest : List Item)
        (ctx locals : Env) (s : List Nat),
      (∀ t, it.data_type ≠ DataType.named t) →
      it.condition = some c → it.repetition = none →
      c.expression ctx locals = true →
      handleSimpleRead fmt nr it.data_type ctx s = none →
      readItems false fmt nr (it :: rest) ctx locals s =
        readItems false fmt nr rest ctx (locals ++ [(it.id, Value.opt none)]) s) := by
  constructor
  · intro st fmt nr it rest ctx locals s hc hr hf
    obtain ⟨id, dt, cond, rep⟩ := it
    simp only at hc hr hf
    subst hc; subst hr
    simp only [readItems, statementRead, hf]
  · intro fmt nr it c rest ctx locals s hdt hc hr hexpr hf
    obtain ⟨id, dt, cond, rep⟩ := it
    simp only at hdt hc hr hf ⊢
    subst hc; subst hr
    cases dt with
    | named t => exact absurd rfl (hdt t)
    | prim k => simp [readItems, statementRead, conditionalRead, hexpr, hf]
    | boolean => simp [readItems, statementRead, conditionalRead, hexpr, hf]

/-- C3 witness: with root `[a: u8, b: u8]` the truncated stream `[5]`
fails the whole decode at the unconditional `b`; with root
`[a: u8, b: u8 if true]` it decodes to `b` absent and continues. -/
theorem C3_failure_policy_witness :
    readItems false exCondFmtPlain (namedReader false exCondFmtPlain 1)
      [⟨"b", .prim .u8, none, none⟩] [] [("a", Value.num 5)] [] = none
    ∧ readItems false exCondFmtPlain (namedReader false exCondFmtPlain 1)
        [⟨"b", .prim .u8, some ⟨fun _ _ => true, false⟩, none⟩] [] [("a", Value.num 5)] [] =
      readItems false exCondFmtPlain (namedReader false exCondFmtPlain 1)
        [] [] ([("a", Value.num 5)] ++ [("b", Value.opt none)]) [] :=
  ⟨C3_failure_policy.1 false exCondFmtPlain _ _ [] [] [("a", Value.num 5)] [] rfl rfl rfl,
   C3_failure_policy.2 exCondFmtPlain _ _ _ [] [] [("a", Value.num 5)] []
     (fun t h => DataType.noConfusion h) rfl rfl rfl rfl⟩

/-! ### C10: trailing input -/

/-- C10 (counterexample): decode does not tolerate arbitrary trailing
bytes.  `[5]` is a well-formed encoding of the instance
`{a: 5, b: None}` of root `[a: u8, b: u8 if true]` (it is the output of
the generated write on that instance, and decodes back to it), but
appending the byte `9` changes the decoded instance: the trailing byte is
read as a present `b = 9` instead of being left unconsumed. -/
theorem C10_counterexample :
    rootWrite exCondFmtPlain 1 [("a", .num 5), ("b", .opt none)] = some [5]
    ∧ rootRead false exCondFmtPlain 1 [5] =
      some ([("a", .num 5), ("b", .opt none)], [])
    ∧ rootRead false exCondFmtPlain 1 [5, 9] =
      some ([("a", .num 5), ("b", .opt (some (.num 9)))], [])
    ∧ rootRead false exCondFmtPlain 1 [5, 9] ≠
      some ([("a", Value.num 5), ("b", Value.opt none)], [9]) := by
  refine ⟨rfl, rfl, rfl, ?_⟩
  intro hcontra
  have h3 : rootRead false exCondFmtPlain 1 [5, 9] =
      some ([("a", Value.num 5), ("b", Value.opt (some (Value.num 9)))], []) := rfl
  rw [h3] at hcontra
  simp at hcontra

/-- C10 (amended): no end-of-stream check is performed after the last
field (decoding an empty item list accepts any remaining stream
unchanged), and for streams produced by encoding a strictly decoded
instance, decode succeeds on the encoding followed by arbitrary trailing
bytes, returns that instance, and leaves exactly the trailing bytes
unconsumed.  (As stated the claim fails: when a truncation-masking
conditional read produced the instance, trailing bytes can be read and
change the result.) -/
theorem C10_trailing_input :
    (∀ (st : Bool) (fmt : Format) nr (ctx locals : Env) (s : List Nat),
      readItems st fmt nr [] ctx locals s = some (locals, s))
    ∧ (∀ (fmt : Format) (fuel : Nat) (s : List Nat) (vals : Env) (rest : List Nat),
      FormatWf fmt → rootRead true fmt fuel s = some (vals, rest) →
      ∃ out, rootWrite fmt fuel vals = some out ∧
        ∀ extra, rootRead false fmt fuel (out ++ extra) = some (vals, extra)) := by
  constructor
  · intro st fmt nr ctx locals s
    rfl
  · intro fmt fuel s vals rest hfmt h
    exact root_rt hfmt fuel s vals rest h

/-- C10 witness: the two-byte instance stream `[5, 9]` of root
`[a: u8, b: u8 if true]` re-encodes to itself and decodes identically
under any trailing bytes. -/
theorem C10_trailing_input_witness :
    readItems false exCondFmtPlain (namedReader false exCondFmtPlain 1)
      [] [] [("x", Value.num 1)] [7, 8] = some ([("x", Value.num 1)], [7, 8])
    ∧ ∃ out, rootWrite exCondFmtPlain 1
        [("a", .num 5), ("b", .opt (some (.num 9)))] = some out ∧
      ∀ extra, rootRead false exCondFmtPlain 1 (out ++ extra) =
        some ([("a", .num 5), ("b", .opt (some (.num 9)))], extra) :=
  ⟨C10_trailing_input.1 false exCondFmtPlain _ [] [("x", Value.num 1)] [7, 8],
   C10_trailing_input.2 exCondFmtPlain 1 [5, 9] _ [] (by decide) rfl⟩

/-! ### C2: the context boundary -/

/-- The shape of a field the code classifies as simple: unconditional,
non-repeated, of numeric primitive type (`bool` is not in `RUST_TYPES`). -/
def isSimpleItem (it : Item) : Bool :=
  it.condition.isNone && it.repetition.isNone &&
    (match it.data_type with
     | .prim _ => true
     | _ => false)

/-- Stated from the specification's words, for comparison with the code's
`contextLen`: a context field is unconditional, non-repeated, and of
primitive type, where the primitive types are the eight integer kinds, the
two float kinds *and boolean*. -/
def specIsContextField (it : Item) : Bool :=
  it.condition.isNone && it.repetition.isNone &&
    (match it.data_type with
     | .prim _ => true
     | .boolean => true
     | .named _ => false)

/-- The context boundary the specification describes. -/
def specContextLen (items : List Item) : Nat :=
  (items.takeWhile specIsContextField).length

theorem takeWhile_prefix_all (p : α → Bool) (l : List α) :
    ∀ x ∈ l.take (l.takeWhile p).length, p x = true := by
  induction l with
  | nil => intro x hx; simp at hx
  | cons a l ih =>
    intro x hx
    by_cases hpa : p a
    · simp only [List.takeWhile_cons, hpa, if_true, List.length_cons, List.take_succ_cons,
        List.mem_cons] at hx
      rcases hx with rfl | hx
      · exact hpa
      · exact ih x hx
    · simp only [List.takeWhile_cons, if_neg hpa, List.length_nil, List.take_zero] at hx
      simp at hx

theorem takeWhile_maximal (p : α → Bool) (l : List α) :
    ∀ m, m ≤ l.length → (∀ x ∈ l.take m, p x = true) →
      m ≤ (l.takeWhile p).length := by
  induction l with
  | nil => intro m hm _; simpa using hm
  | cons a l ih =>
    intro m hm hall
    cases m with
    | zero => simp
    | succ m =>
      have hpa : p a = true := hall a (by simp)
      simp only [List.takeWhile_cons, hpa, if_true, List.length_cons]
      have := ih m (by simpa using hm)
        (fun x hx => hall x (by simp [List.take_succ_cons, hx]))
      omega

theorem mem_RUST_TYPES_length {s : String} (h : s ∈ RUST_TYPES) : s.length ≤ 3 := by
  fin_cases h <;> decide

/-- C2 (counterexample): a leading unconditional, non-repeated `bool`
field is *not* part of the context prefix: the specification's boundary
for the one-field root `[flag: bool]` is 1, the code's is 0 (`bool` is
not a member of `RUST_TYPES`). -/
theorem C2_counterexample :
    specContextLen [⟨"flag", DataType.boolean, none, none⟩] = 1
    ∧ contextLen [⟨"flag", DataType.boolean, none, none⟩] = 0 :=
  ⟨rfl, rfl⟩

/-- C2 (amended): the context boundary is the maximal prefix of fields
whose generated struct type is a `RUST_TYPES` member — equivalently (for
schemas whose composite type names do not shadow a primitive name) the
maximal prefix of unconditional, non-repeated fields of *numeric*
primitive type; `bool`, composite, conditional and repeated fields all
terminate the prefix. -/
theorem C2_context_boundary :
    (∀ items : List Item, ∀ it ∈ items.take (contextLen items),
      is_simple_type (fieldTypeName it) = true)
    ∧ (∀ (items : List Item) (m : Nat), m ≤ items.length →
      (∀ it ∈ items.take m, is_simple_type (fieldTypeName it) = true) →
      m ≤ contextLen items)
    ∧ (∀ it : Item, (∀ t, it.data_type = .named t → is_simple_type t = false) →
      is_simple_type (fieldTypeName it) = isSimpleItem it) := by
  refine ⟨?_, ?_, ?_⟩
  · intro items
    exact takeWhile_prefix_all _ items
  · intro items m hm hall
    exact takeWhile_maximal _ items m hm hall
  · intro it hnamed
    obtain ⟨id, dt, cond, rep⟩ := it
    cases rep with
    | some r =>
      have hne : is_simple_type (fieldTypeName ⟨id, dt, cond, some r⟩) = false := by
        simp only [is_simple_type, fieldTypeName]
        rw [Bool.eq_false_iff]
        intro hc
        have hmem : ("Vec<" ++ typeName dt ++ ">") ∈ RUST_TYPES := List.elem_iff.mp hc
        have := mem_RUST_TYPES_length hmem
        simp [String.length_append] at this
        have h1 : "Vec<".length = 4 := rfl
        have h2 : ">".length = 1 := rfl
        omega
      rw [hne]
      simp [isSimpleItem]
    | none =>
      cases cond with
      | some c =>
        have hne : is_simple_type (fieldTypeName ⟨id, dt, some c, none⟩) = false := by
          simp only [is_simple_type, fieldTypeName]
          rw [Bool.eq_false_iff]
          intro hc
          have hmem : ("Option<" ++ typeName dt ++ ">") ∈ RUST_TYPES := List.elem_iff.mp hc
          have := mem_RUST_TYPES_length hmem
          simp [String.length_append] at this
          have h1 : "Option<".length = 7 := rfl
          have h2 : ">".length = 1 := rfl
          omega
        rw [hne]
        simp [isSimpleItem]
      | none =>
        cases dt with
        | prim k => cases k <;> rfl
        | boolean => rfl
        | named t =>
          have := hnamed t rfl
          simpa [is_simple_type, fieldTypeName, isSimpleItem, typeName] using this

/-- C2 witness: a two-numeric-field prefix is accepted as maximal, and the
classification agrees with the unconditional/non-repeated/numeric shape on
a composite-typed field. -/
theorem C2_context_boundary_witness :
    2 ≤ contextLen [⟨"x", DataType.prim .u16, none, none⟩,
      ⟨"y", DataType.prim .u8, none, none⟩, ⟨"flag", DataType.boolean, none, none⟩]
    ∧ is_simple_type (fieldTypeName ⟨"z", DataType.named "Inner", none, none⟩) =
      isSimpleItem ⟨"z", DataType.named "Inner", none, none⟩ :=
  ⟨C2_context_boundary.2.1 _ 2 (by decide) (by decide),
   C2_context_boundary.2.2 _ (fun t ht => by cases ht; decide)⟩

/-! ### C4: malformed documents -/

/-- C4 (counterexample): a document whose field descriptor lacks the
required `id` key does not fail parsing — `parse_file` succeeds with a
schema in which the field was silently dropped. -/
theorem C4_counterexample :
    parse_file [("meta", Yaml.map []), ("types", Yaml.map []),
      ("items", Yaml.seq [Yaml.map [("type", Yaml.str "u8")]])] =
    some ⟨Endianness.little, [], []⟩ :=
  rfl

/-- C4 (amended): the parser does not reject malformed field content
atomically; it silently repairs.  A sequence element that is not a mapping
or fails `parse_item` (for example from a missing `id` or `type`) is
dropped from the item list; a field with an unparsable `if` expression is
kept without its condition; a field whose `repeat` entry has an unknown
discriminant or an unparsable count is kept without its repetition.  Only
missing or wrongly-shaped top-level keys abort parsing. -/
theorem C4_malformed_handling :
    (∀ (v : Yaml) (rest : List Yaml), (Yaml.asMap v).bind parse_item = none →
      parse_sequence (v :: rest) = parse_sequence rest)
    ∧ parse_item [("id", Yaml.str "a"), ("type", Yaml.str "u8"),
        ("if", Yaml.str "")] = some ⟨"a", "u8", none, none⟩
    ∧ parse_item [("id", Yaml.str "a"), ("type", Yaml.str "u8"),
        ("repeat", Yaml.str "Repeat(3)")] = some ⟨"a", "u8", none, none⟩
    ∧ parse_repetition "Repeat(3)" = none
    ∧ parse_repetition "Count" = none := by
  refine ⟨?_, rfl, rfl, rfl, rfl⟩
  intro v rest h
  simp [parse_sequence, h]

/-- C4 witness: a descriptor with no `id` key is dropped while the
well-formed descriptor after it is kept. -/
theorem C4_malformed_handling_witness :
    parse_sequence [Yaml.map [("type", Yaml.str "u8")],
      Yaml.map [("id", Yaml.str "a"), ("type", Yaml.str "u8")]] =
    parse_sequence [Yaml.map [("id", Yaml.str "a"), ("type", Yaml.str "u8")]] :=
  C4_malformed_handling.1 _ _ rfl

/-! ### C5: optional top-level keys -/

/-- C5 (counterexample): the `meta` and `types` keys are not optional.
Both documents below carry a valid `items` sequence, yet parsing the one
without `meta` and the one without `types` each fails. -/
theorem C5_counterexample :
    parse_file [("types", Yaml.map []), ("items", Yaml.seq [])] = none
    ∧ parse_file [("meta", Yaml.map []), ("items", Yaml.seq [])] = none :=
  ⟨rfl, rfl⟩

/-- C5 (amended): all three top-level keys `meta`, `types` and `items` are
required.  When they are present, parsing succeeds with the endianness
taken from `meta` (little unless its `endian` entry is the string `"be"`,
in particular for an empty `meta` mapping) and the named-type map taken
from `types` (empty for an empty mapping). -/
theorem C5_top_level_keys :
    (∀ (mv : Yaml) (tm : List (String × Yaml)) (xs : List Yaml),
      parse_file [("meta", mv), ("types", Yaml.map tm), ("items", Yaml.seq xs)] =
        some ⟨parse_meta mv, parse_defined_types tm, parse_sequence xs⟩)
    ∧ (∀ mv : Yaml, ((mv.get "endian").bind Yaml.asStr) ≠ some "be" →
      parse_meta mv = .little)
    ∧ parse_meta (Yaml.map []) = .little
    ∧ parse_defined_types [] = [] := by
  refine ⟨?_, ?_, rfl, rfl⟩
  · intro mv tm xs
    rfl
  · intro mv h
    simp [parse_meta, h]

/-- C5 witness: a document with an empty `meta` mapping and an empty
`types` mapping parses to the little-endian schema with no named types. -/
theorem C5_top_level_keys_witness :
    parse_file [("meta", Yaml.map []), ("types", Yaml.map []),
      ("items", Yaml.seq [Yaml.map [("id", Yaml.str "a"), ("type", Yaml.str "u8")]])] =
      some ⟨parse_meta (Yaml.map []), parse_defined_types [],
        parse_sequence [Yaml.map [("id", Yaml.str "a"), ("type", Yaml.str "u8")]]⟩
    ∧ parse_meta (Yaml.map [("endian", Yaml.str "le")]) = .little :=
  ⟨C5_top_level_keys.1 (Yaml.map []) [] _,
   C5_top_level_keys.2.1 _ (by decide)⟩

/-! ### C6: deterministic byte width under `advance_if_false` -/

/-- C6: for a conditional primitive field with `advance_if_false` set,
whose `size_of` is `w` (the encoded width, for primitives): writing the
absent value emits exactly `w` zero bytes, and decoding any stream of at
least `w` bytes under a false condition consumes exactly `w` bytes —
whatever their content — and yields the absent value. -/
theorem C6_advance_if_false (fmt : Format)
    (nw : String → List (String × Value) → Option (List Nat))
    (nr : String → Env → List Nat → Option (Value × List Nat)) (st : Bool)
    (id : String) (dt : DataType) (c : Condition) (w : Nat)
    (vals ctx locals : Env) (s : List Nat)
    (hsz : sizeOfDataType dt = some w) (hadv : c.advance_if_false = true) :
    (assocGet id vals = some (.opt none) →
      statementWrite fmt nw ⟨id, dt, some c, none⟩ vals =
        some (List.replicate w 0))
    ∧ (c.expression ctx locals = false → w ≤ s.length →
      statementRead st fmt nr ⟨id, dt, some c, none⟩ ctx locals s =
        some (.opt none, s.drop w)) := by
  constructor
  · intro hv
    simp [statementWrite, hv, conditionalWrite, hadv, hsz]
  · intro hexpr hlen
    simp [statementRead, conditionalRead, hexpr, hadv, hsz, hlen]

/-- C6 witness: a false-condition `u32` field with `advance_if_false`
writes four zero bytes when absent and skips exactly four arbitrary bytes
on decode. -/
theorem C6_advance_if_false_witness :
    (statementWrite exCondFmtPlain (fun _ _ => none)
        ⟨"f", .prim .u32, some ⟨fun _ _ => false, true⟩, none⟩
        [("f", Value.opt none)] = some (List.replicate 4 0))
    ∧ statementRead false exCondFmtPlain (fun _ _ _ => none)
        ⟨"f", .prim .u32, some ⟨fun _ _ => false, true⟩, none⟩
        [] [] [9, 9, 9, 9, 7] = some (.opt none, [9, 9, 9, 9, 7].drop 4) :=
  ⟨(C6_advance_if_false exCondFmtPlain (fun _ _ => none) (fun _ _ _ => none) false
      "f" (.prim .u32) ⟨fun _ _ => false, true⟩ 4 [("f", Value.opt none)] [] [] []
      rfl rfl).1 rfl,
   (C6_advance_if_false exCondFmtPlain (fun _ _ => none) (fun _ _ _ => none) false
      "f" (.prim .u32) ⟨fun _ _ => false, true⟩ 4 [] [] [] [9, 9, 9, 9, 7]
      rfl rfl).2 rfl (by decide)⟩

/-! ### C7: repetition read fidelity -/

theorem repeatedRead_length (inner : List Nat → Option (Value × List Nat)) :
    ∀ (n : Nat) (s : List Nat) (vs : List Value) (s2 : List Nat),
      repeatedRead inner n s = some (vs, s2) → vs.length = n := by
  intro n
  induction n with
  | zero =>
    intro s vs s2 h
    simp only [repeatedRead, Option.some.injEq, Prod.mk.injEq] at h
    simp [← h.1]
  | succ n ih =>
    intro s vs s2 h
    simp only [repeatedRead] at h
    cases hx : inner s with
    | none => simp only [hx] at h; exact Option.noConfusion h
    | some p =>
      obtain ⟨v, s2'⟩ := p
      simp only [hx] at h
      cases hy : repeatedRead inner n s2' with
      | none => simp only [hy] at h; exact Option.noConfusion h
      | some q =>
        obtain ⟨vs', s3⟩ := q
        simp only [hy, Option.some.injEq, Prod.mk.injEq] at h
        have := ih _ _ _ hy
        simp [← h.1, this]

theorem repeatedRead_fails (inner : List Nat → Option (Value × List Nat)) :
    ∀ (j n : Nat) (s s1 : List Nat) (vs : List Value),
      j < n → repeatedRead inner j s = some (vs, s1) → inner s1 = none →
      repeatedRead inner n s = none := by
  intro j
  induction j with
  | zero =>
    intro n s s1 vs hj h hf
    simp only [repeatedRead, Option.some.injEq, Prod.mk.injEq] at h
    obtain ⟨-, hs⟩ := h
    cases n with
    | zero => omega
    | succ m =>
      simp only [repeatedRead]
      rw [← hs] at hf
      simp [hf]
  | succ j ih =>
    intro n s s1 vs hj h hf
    simp only [repeatedRead] at h
    cases hx : inner s with
    | none => simp only [hx] at h; exact Option.noConfusion h
    | some p =>
      obtain ⟨v, s2'⟩ := p
      simp only [hx] at h
      cases hy : repeatedRead inner j s2' with
      | none => simp only [hy] at h; exact Option.noConfusion h
      | some q =>
        obtain ⟨vs', s3⟩ := q
        simp only [hy, Option.some.injEq, Prod.mk.injEq] at h
        cases n with
        | zero => omega
        | succ m =>
          have hm : j < m := by omega
          have := ih m s2' s1 vs' hm (by rw [hy, h.2]) hf
          simp only [repeatedRead, hx, this]

/-- C7: for a repeated field with `Repetition::Count`: a count of zero
yields the empty collection and consumes no bytes; a successful decode
yields exactly `count` elements in order; if, after `j < count`
successful element decodes, the next element decode fails, the whole
field fails, and a failed field statement fails the decode of the whole
enclosing record. -/
theorem C7_repetition_read (st : Bool) (fmt : Format)
    (nr : String → Env → List Nat → Option (Value × List Nat))
    (id : String) (dt : DataType) (e : Env → Env → Nat) (ctx locals : Env) :
    (e ctx locals = 0 → ∀ s : List Nat,
      statementRead st fmt nr ⟨id, dt, none, some (.count e)⟩ ctx locals s =
        some (.arr [], s))
    ∧ (∀ (s : List Nat) (v : Value) (s2 : List Nat),
      statementRead st fmt nr ⟨id, dt, none, some (.count e)⟩ ctx locals s =
        some (v, s2) →
      ∃ vs, v = .arr vs ∧ vs.length = e ctx locals)
    ∧ (∀ (j : Nat) (s s1 : List Nat) (vs : List Value), j < e ctx locals →
      repeatedRead (fun s0 => handleSimpleRead fmt nr dt ctx s0) j s = some (vs, s1) →
      handleSimpleRead fmt nr dt ctx s1 = none →
      statementRead st fmt nr ⟨id, dt, none, some (.count e)⟩ ctx locals s = none)
    ∧ (∀ (it : Item) (rest : List Item) (ctx2 locals2 : Env) (s : List Nat),
      statementRead st fmt nr it ctx2 locals2 s = none →
      readItems st fmt nr (it :: rest) ctx2 locals2 s = none) := by
  refine ⟨?_, ?_, ?_, ?_⟩
  · intro h0 s
    simp [statementRead, h0, repeatedRead]
  · intro s v s2 h
    simp only [statementRead, Option.map_eq_some'] at h
    obtain ⟨⟨vs, s3⟩, hvs, hv⟩ := h
    exact ⟨vs, (Prod.mk.injEq .. ▸ hv).1.symm, repeatedRead_length _ _ _ _ _ hvs⟩
  · intro j s s1 vs hj hloop hf
    have := repeatedRead_fails _ j (e ctx locals) s s1 vs hj hloop hf
    simp [statementRead, this]
  · intro it rest ctx2 locals2 s h
    simp only [readItems, h]

/-- C7 witness: count 0 consumes nothing; a 3-element `u8` decode returns
3 bytes; a 2-element decode of a 1-byte stream fails at the second
element and fails the enclosing record. -/
theorem C7_repetition_read_witness :
    (statementRead false exCondFmtPlain (fun _ _ _ => none)
        ⟨"r", .prim .u8, none, some (.count (fun _ _ => 0))⟩ [] [] [7, 8] =
      some (.arr [], [7, 8]))
    ∧ (∃ vs, Value.arr [Value.num 7, Value.num 8, Value.num 9] = Value.arr vs ∧
        vs.length = (fun (_ _ : Env) => 3) [] [])
    ∧ (statementRead false exCondFmtPlain (fun _ _ _ => none)
        ⟨"r", .prim .u8, none, some (.count (fun _ _ => 2))⟩ [] [] [7] = none)
    ∧ readItems false exCondFmtPlain (fun _ _ _ => none)
        [⟨"r", .prim .u8, none, some (.count (fun _ _ => 2))⟩] [] [] [7] = none := by
  have hc := C7_repetition_read false exCondFmtPlain (fun _ _ _ => none)
    "r" (.prim .u8) (fun _ _ => 2) [] []
  refine ⟨?_, ?_, ?_, ?_⟩
  · exact (C7_repetition_read false exCondFmtPlain (fun _ _ _ => none)
      "r" (.prim .u8) (fun _ _ => 0) [] []).1 rfl [7, 8]
  · exact (C7_repetition_read false exCondFmtPlain (fun _ _ _ => none)
      "r" (.prim .u8) (fun _ _ => 3) [] []).2.1 [7, 8, 9] _ []
      (by rfl)
  · exact hc.2.2.1 1 [7] [] [.num 7] (by decide) rfl rfl
  · exact hc.2.2.2 _ [] [] []
      [7] (hc.2.2.1 1 [7] [] [.num 7] (by decide) rfl rfl)

/-! ### C8: repeated write uses the stored collection -/

theorem collectWrites_length (f : Value → Option (List Nat)) :
    ∀ (l : List Value) (bss : List (List Nat)),
      collectWrites f l = some bss → bss.length = l.length := by
  intro l
  induction l with
  | nil =>
    intro bss h
    simp only [collectWrites, Option.some.injEq] at h
    simp [← h]
  | cons v rest ih =>
    intro bss h
    simp only [collectWrites] at h
    cases hx : f v with
    | none => simp only [hx] at h; exact Option.noConfusion h
    | some bs =>
      simp only [hx] at h
      cases hy : collectWrites f rest with
      | none => simp only [hy] at h; exact Option.noConfusion h
      | some bss' =>
        simp only [hy, Option.some.injEq] at h
        simp [← h, ih _ hy]

/-- C8: encoding a repeated field iterates the stored collection in
order: when the per-element writes succeed the emitted bytes are their
in-order concatenation, the number of emitted elements is the
collection's length, and the result is independent of the count
expression (which is not evaluated during encoding). -/
theorem C8_repeated_write (fmt : Format)
    (nw : String → List (String × Value) → Option (List Nat))
    (id : String) (dt : DataType) (e : Env → Env → Nat)
    (vals : List (String × Value)) (l : List Value) (bss : List (List Nat)) :
    (assocGet id vals = some (.arr l) →
      collectWrites (handleSimpleWrite fmt nw dt) l = some bss →
      statementWrite fmt nw ⟨id, dt, none, some (.count e)⟩ vals =
        some bss.flatten ∧ bss.length = l.length)
    ∧ ∀ e2 : Env → Env → Nat,
      statementWrite fmt nw ⟨id, dt, none, some (.count e)⟩ vals =
        statementWrite fmt nw ⟨id, dt, none, some (.count e2)⟩ vals := by
  constructor
  · intro hv hw
    constructor
    · simp [statementWrite, hv, hw]
    · exact collectWrites_length _ _ _ hw
  · intro e2
    rfl

/-- C8 witness: a stored two-element `u8` collection writes its two bytes
in order, and swapping the count expression for a contradicting one does
not change the write. -/
theorem C8_repeated_write_witness :
    (statementWrite exCondFmtPlain (fun _ _ => none)
        ⟨"r", .prim .u8, none, some (.count (fun _ _ => 2))⟩
        [("r", Value.arr [Value.num 7, Value.num 8])] =
        some ([[7], [8]] : List (List Nat)).flatten
      ∧ ([[7], [8]] : List (List Nat)).length =
        [Value.num 7, Value.num 8].length)
    ∧ statementWrite exCondFmtPlain (fun _ _ => none)
        ⟨"r", .prim .u8, none, some (.count (fun _ _ => 2))⟩
        [("r", Value.arr [Value.num 7, Value.num 8])] =
      statementWrite exCondFmtPlain (fun _ _ => none)
        ⟨"r", .prim .u8, none, some (.count (fun _ _ => 1000))⟩
        [("r", Value.arr [Value.num 7, Value.num 8])] :=
  ⟨(C8_repeated_write exCondFmtPlain (fun _ _ => none) "r" (.prim .u8)
      (fun _ _ => 2) [("r", Value.arr [Value.num 7, Value.num 8])]
      [Value.num 7, Value.num 8] [[7], [8]]).1 rfl rfl,
   (C8_repeated_write exCondFmtPlain (fun _ _ => none) "r" (.prim .u8)
      (fun _ _ => 2) [("r", Value.arr [Value.num 7, Value.num 8])]
      [Value.num 7, Value.num 8] [[7], [8]]).2 (fun _ _ => 1000)⟩

/-! ### C9: envelope round trip -/

theorem cipherFrom_cipherFrom (bs : List Nat) :
    ∀ i, cipherFrom i (cipherFrom i bs) = bs := by
  induction bs with
  | nil => intro i; rfl
  | cons b rest ih =>
    intro i
    simp [cipherFrom, ih (i + 1), Nat.xor_assoc, Nat.xor_self, Nat.xor_zero]

/-- The stream cipher is an involution. -/
theorem cipher_cipher (bs : List Nat) : cipher (cipher bs) = bs :=
  cipherFrom_cipherFrom bs 0

theorem formatVersion_eq (n : Nat) (hv : n ≤ 99) :
    formatVersion n = [digitChar (n / 10), digitChar (n % 10)] := by
  by_cases h10 : n < 10
  · have hd : n / 10 = 0 := Nat.div_eq_of_lt h10
    have hm : n % 10 = n := Nat.mod_eq_of_lt h10
    simp [formatVersion, decimalRender, if_pos h10, hd, hm]
    rfl
  · have h100 : n < 100 := by omega
    simp [formatVersion, decimalRender, if_neg h10, if_pos h100]

theorem digitChar_isDigit {k : Nat} (h : k ≤ 9) : (digitChar k).isDigit = true := by
  interval_cases k <;> decide

theorem saveCaptures_eq (d1 d2 : Char) (data : List Char)
    (h1 : d1.isDigit = true) (h2 : d2.isDigit = true)
    (hn : ∀ c ∈ data, c ≠ '\n') :
    saveCaptures ('$' :: d1 :: d2 :: 's' :: (data ++ ['$', 'e'])) =
      some ([d1, d2], data) := by
  have hlen : (data ++ ['$', 'e']).length - 2 = data.length := by simp
  simp only [saveCaptures]
  rw [if_pos]
  · rw [hlen, List.take_left]
  · refine ⟨by trivial, by trivial, by simp [h1], by simp [h2], by simp, ?_, ?_⟩
    · rw [hlen, List.drop_left]
    · rw [hlen, List.take_left]
      exact hn

/-- C9: for every payload and every version rendering to two decimal
digits, wrapping produces exactly the envelope
`"$" ++ 2-digit version ++ "s" ++ base64(zlib(cipher(raw))) ++ "$e"`, and
unwrapping that envelope returns exactly the payload — given that the
external zlib and base64 collaborators invert themselves on the wrapped
data and that the base64 output contains no newline (true of the base64
alphabet). -/
theorem C9_envelope_round_trip (deflate : List Nat → List Nat)
    (b64e : List Nat → List Char) (inflate : List Nat → Option (List Nat))
    (b64d : List Char → Option (List Nat)) (raw : List Nat) (version : Nat)
    (hv : version ≤ 99)
    (hb : b64d (b64e (deflate (cipher raw))) = some (deflate (cipher raw)))
    (hz : inflate (deflate (cipher raw)) = some (cipher raw))
    (hn : ∀ c ∈ b64e (deflate (cipher raw)), c ≠ '\n') :
    encode_from_raw deflate b64e raw version =
      '$' :: digitChar (version / 10) :: digitChar (version % 10) :: 's' ::
        (b64e (deflate (cipher raw)) ++ ['$', 'e'])
    ∧ decode_to_raw inflate b64d (encode_from_raw deflate b64e raw version) =
      some raw := by
  have henc : encode_from_raw deflate b64e raw version =
      '$' :: digitChar (version / 10) :: digitChar (version % 10) :: 's' ::
        (b64e (deflate (cipher raw)) ++ ['$', 'e']) := by
    simp [encode_from_raw, formatVersion_eq version hv]
  refine ⟨henc, ?_⟩
  rw [henc]
  simp only [decode_to_raw,
    saveCaptures_eq _ _ _ (@digitChar_isDigit (version / 10) (by omega))
      (@digitChar_isDigit (version % 10) (by omega)) hn,
    hb, hz]
  rw [cipher_cipher]

/-- C9 witness: with the identity in place of the compressor and a
one-entry base64 table, the payload `[7]` wraps to `"$00sx$e"` and
unwraps to itself (`cipher [7] = [115]`). -/
theorem C9_envelope_round_trip_witness :
    encode_from_raw (fun bs => bs) (fun _ => ['x']) [7] 0 =
      '$' :: digitChar (0 / 10) :: digitChar (0 % 10) :: 's' ::
        ((fun (_ : List Nat) => ['x']) ((fun (bs : List Nat) => bs) (cipher [7])) ++ ['$', 'e'])
    ∧ decode_to_raw (fun bs => some bs) (fun _ => some [115])
        (encode_from_raw (fun bs => bs) (fun _ => ['x']) [7] 0) = some [7] :=
  C9_envelope_round_trip (fun bs => bs) (fun _ => ['x']) (fun bs => some bs)
    (fun _ => some [115]) [7] 0 (by decide) (by rfl) (by rfl) (by decide)

end SaveCodec
